import Mathlib

/-!
Shallow embedding of the DAS crypto daily-history sync pipeline
(`filter1.py`, `filter2.py`, `filter3.py`, `db_utils.py`, `main.py`).

Modelling conventions:
* Calendar dates are modelled as integers (day ordinals).  Valid ISO
  `YYYY-MM-DD` strings compare lexicographically exactly as their day
  ordinals compare, `+ timedelta(days=1)` is `+ 1`, and
  `today - timedelta(days=n)` is `- n`.
* Float payloads (prices, volumes, market caps) are modelled as integers:
  no claim under study depends on float arithmetic, only on value identity
  and ordering.
* Network calls and pandas DataFrames are modelled by oracles that return
  the observable outcome of a call (exception raised / empty frame /
  parsed rows), since the parsing layers (`requests`, `yfinance`,
  `pandas`) are external collaborators.
* The SQLite tables are modelled as lists of rows; `INSERT OR REPLACE`
  on a primary key deletes every row with the conflicting key and appends
  the new row, which is its documented SQLite semantics.
-/

namespace DAS

/-! ### filter2.py — Sync Planner -/

/-- What `build_update_plan` observes in the coverage map for a symbol that
has an entry: either the stored `last_date` string parsed by
`datetime.strptime(last_date, "%Y-%m-%d")`, or a value on which that parse
raises `ValueError`. -/
inductive CovEntry
  | parsed (d : Int)
  | unparseable
deriving DecidableEq

/-- A symbol record as consumed by `build_update_plan` (`coin["symbol"]`). -/
structure Coin where
  symbol : String
deriving DecidableEq

/-- A fetch-plan entry `{"symbol": ..., "start_date": ..., "end_date": ...}`. -/
structure PlanEntry where
  symbol : String
  start_date : Int
  end_date : Int
deriving DecidableEq

/-- `build_update_plan` (src/filter2.py, lines 23–59).  `last_dates` is the
coverage map returned by `get_last_dates`; `today` is
`datetime.utcnow().date()`; `history_days` is the `HISTORY_DAYS`
configuration.  A coverage value that fails to parse makes the code fall
back to `dt = datetime.utcnow().date()`, i.e. `today`, so the start becomes
`today + 1`.  `plan_start_date` is the per-coin start-date computation of
lines 38–45. -/
def plan_start_date (last_date : Option CovEntry) (today : Int)
    (history_days : Nat) : Int :=
  match last_date with
  | none => today - history_days
  | some (.parsed d) => d + 1
  | some .unparseable => today + 1

def build_update_plan (last_dates : String → Option CovEntry)
    (top_coins : List Coin) (today : Int) (history_days : Nat) :
    List PlanEntry :=
  top_coins.filterMap (fun coin =>
    let start_date : Int :=
      plan_start_date (last_dates coin.symbol) today history_days
    if start_date > today then none
    else some { symbol := coin.symbol, start_date := start_date, end_date := today })

/-- C1: every emitted entry has `end = today` and `start ≤ today` (entries
whose computed start would exceed today are skipped); a symbol whose
coverage-map last date is `D` gets an entry with `start = D + 1` whenever
that start is not in the future; a symbol absent from the coverage map gets
an entry with `start = today - history_days`. -/
theorem build_update_plan_spec (last_dates : String → Option CovEntry)
    (top_coins : List Coin) (today : Int) (history_days : Nat) :
    (∀ e ∈ build_update_plan last_dates top_coins today history_days,
        e.end_date = today ∧ e.start_date ≤ today)
    ∧ (∀ c ∈ top_coins, ∀ D : Int, last_dates c.symbol = some (.parsed D) →
        D + 1 ≤ today →
        ({ symbol := c.symbol, start_date := D + 1, end_date := today } : PlanEntry)
          ∈ build_update_plan last_dates top_coins today history_days)
    ∧ (∀ c ∈ top_coins, last_dates c.symbol = none →
        ({ symbol := c.symbol, start_date := today - history_days, end_date := today } : PlanEntry)
          ∈ build_update_plan last_dates top_coins today history_days) := by
  refine ⟨?_, ?_, ?_⟩
  · intro e he
    simp only [build_update_plan, List.mem_filterMap] at he
    obtain ⟨c, _, hc⟩ := he
    split at hc
    · simp at hc
    · rename_i hle
      simp only [Option.some.injEq] at hc
      subst hc
      exact ⟨rfl, not_lt.mp hle⟩
  · intro c hc D hD hle
    simp only [build_update_plan, List.mem_filterMap]
    refine ⟨c, hc, ?_⟩
    simp only [hD, plan_start_date]
    split
    · rename_i hgt
      exact absurd hgt (not_lt.mpr hle)
    · rfl
  · intro c hc hnone
    simp only [build_update_plan, List.mem_filterMap]
    refine ⟨c, hc, ?_⟩
    simp only [hnone, plan_start_date]
    split
    · rename_i hgt
      exfalso
      omega
    · rfl

/-- Witness for C1 at a concrete instance: coverage map has BTC ↦ day 10,
nothing for ETH; today = 20, depth = 5. -/
theorem build_update_plan_spec_witness :
    ({ symbol := "BTC", start_date := 11, end_date := 20 } : PlanEntry)
      ∈ build_update_plan
          (fun s => if s = "BTC" then some (.parsed 10) else none)
          [⟨"BTC"⟩, ⟨"ETH"⟩] 20 5
    ∧ ({ symbol := "ETH", start_date := 15, end_date := 20 } : PlanEntry)
      ∈ build_update_plan
          (fun s => if s = "BTC" then some (.parsed 10) else none)
          [⟨"BTC"⟩, ⟨"ETH"⟩] 20 5 := by
  constructor
  · exact (build_update_plan_spec
      (fun s => if s = "BTC" then some (.parsed 10) else none)
      [⟨"BTC"⟩, ⟨"ETH"⟩] 20 5).2.1 ⟨"BTC"⟩ (by simp) 10 (by simp) (by norm_num)
  · exact (build_update_plan_spec
      (fun s => if s = "BTC" then some (.parsed 10) else none)
      [⟨"BTC"⟩, ⟨"ETH"⟩] 20 5).2.2 ⟨"ETH"⟩ (by simp) (by simp)

/-- C9: a symbol whose coverage-map value is present but unparseable gets
start `today + 1 > today`, hence no plan entry at all for that symbol. -/
theorem build_update_plan_unparseable_skipped
    (last_dates : String → Option CovEntry) (top_coins : List Coin)
    (today : Int) (history_days : Nat) (s : String)
    (hs : last_dates s = some .unparseable) :
    ∀ e ∈ build_update_plan last_dates top_coins today history_days,
      e.symbol ≠ s := by
  intro e he
  simp only [build_update_plan, List.mem_filterMap] at he
  obtain ⟨c, _, hc⟩ := he
  by_cases hcs : c.symbol = s
  · rw [hcs, hs] at hc
    simp only [plan_start_date] at hc
    split at hc
    · simp at hc
    · rename_i hnlt
      exact absurd (lt_add_one today) hnlt
  · split at hc
    · simp at hc
    · simp only [Option.some.injEq] at hc
      subst hc
      exact hcs

/-- Witness for C9: with X ↦ unparseable and Y uncovered (today 0, depth 0),
the single emitted entry is for Y, and its symbol differs from X. -/
theorem build_update_plan_unparseable_skipped_witness :
    ({ symbol := "Y", start_date := 0, end_date := 0 } : PlanEntry).symbol ≠ "X" := by
  refine build_update_plan_unparseable_skipped
    (fun s => if s = "X" then some .unparseable else none)
    [⟨"X"⟩, ⟨"Y"⟩] 0 0 "X" (by simp)
    { symbol := "Y", start_date := 0, end_date := 0 } ?_
  decide

/-! ### db_utils.py — Storage Gateway

The `daily_history` table has `PRIMARY KEY (symbol, date)`; the `coins`
table has `symbol TEXT PRIMARY KEY`.  Both writers use
`INSERT OR REPLACE`, whose SQLite semantics is: delete any row that
conflicts on the primary key, then insert the new row.  A table is
modelled as the list of its rows; `executemany` applies the statement to
the rows in order. -/

/-- A row of `daily_history`: `(symbol, date, open, high, low, close, volume)`.
Dates are day ordinals; OHLCV floats are modelled as integers. -/
structure BarRow where
  symbol : String
  date : Int
  «open» : Int
  high : Int
  low : Int
  close : Int
  volume : Int
deriving DecidableEq

/-- One `INSERT OR REPLACE INTO daily_history` of row `r`: every row that
shares the primary key `(symbol, date)` is replaced by `r`. -/
def upsertBar (table : List BarRow) (r : BarRow) : List BarRow :=
  table.filter (fun t => !(t.symbol == r.symbol && t.date == r.date)) ++ [r]

/-- `insert_daily_history` (src/db_utils.py, lines 63–84): `executemany`
of `INSERT OR REPLACE` over `rows`, in order, in one transaction.  Empty
input is a no-op (`foldl` over `[]` returns the table unchanged, matching
the early `return`). -/
def insert_daily_history (table : List BarRow) (rows : List BarRow) : List BarRow :=
  rows.foldl upsertBar table

/-- C2: persisting two rows with the same `(symbol, date)` key — in one
call or in two successive calls — leaves exactly one stored row for that
key, holding the last-persisted values; persisting the same row again
changes nothing. -/
theorem insert_daily_history_last_write_wins (table : List BarRow)
    (r1 r2 : BarRow) (hsym : r1.symbol = r2.symbol) (hdate : r1.date = r2.date) :
    insert_daily_history (insert_daily_history table [r1]) [r2]
      = insert_daily_history table [r1, r2]
    ∧ (insert_daily_history table [r1, r2]).filter
        (fun t => t.symbol == r2.symbol && t.date == r2.date) = [r2]
    ∧ insert_daily_history (insert_daily_history table [r1, r2]) [r2]
      = insert_daily_history table [r1, r2] := by
  refine ⟨rfl, ?_, ?_⟩
  · simp only [insert_daily_history, List.foldl, upsertBar, List.filter_append,
      List.filter_filter, hsym, hdate]
    simp [List.filter_eq_self]
  · simp only [insert_daily_history, List.foldl, upsertBar, List.filter_append,
      List.filter_filter, hsym, hdate]
    simp

/-- Witness for C2 at concrete rows: same key `("BTC", 3)`, different
values, on a table that already held a row for that key. -/
theorem insert_daily_history_last_write_wins_witness :
    insert_daily_history
        (insert_daily_history [⟨"BTC", 3, 0, 0, 0, 0, 0⟩] [⟨"BTC", 3, 1, 1, 1, 1, 1⟩])
        [⟨"BTC", 3, 2, 2, 2, 2, 2⟩]
      = insert_daily_history [⟨"BTC", 3, 0, 0, 0, 0, 0⟩]
          [⟨"BTC", 3, 1, 1, 1, 1, 1⟩, ⟨"BTC", 3, 2, 2, 2, 2, 2⟩]
    ∧ (insert_daily_history [⟨"BTC", 3, 0, 0, 0, 0, 0⟩]
          [⟨"BTC", 3, 1, 1, 1, 1, 1⟩, ⟨"BTC", 3, 2, 2, 2, 2, 2⟩]).filter
        (fun t => t.symbol == "BTC" && t.date == 3) = [⟨"BTC", 3, 2, 2, 2, 2, 2⟩]
    ∧ insert_daily_history
        (insert_daily_history [⟨"BTC", 3, 0, 0, 0, 0, 0⟩]
          [⟨"BTC", 3, 1, 1, 1, 1, 1⟩, ⟨"BTC", 3, 2, 2, 2, 2, 2⟩])
        [⟨"BTC", 3, 2, 2, 2, 2, 2⟩]
      = insert_daily_history [⟨"BTC", 3, 0, 0, 0, 0, 0⟩]
          [⟨"BTC", 3, 1, 1, 1, 1, 1⟩, ⟨"BTC", 3, 2, 2, 2, 2, 2⟩] :=
  insert_daily_history_last_write_wins
    [⟨"BTC", 3, 0, 0, 0, 0, 0⟩] ⟨"BTC", 3, 1, 1, 1, 1, 1⟩ ⟨"BTC", 3, 2, 2, 2, 2, 2⟩
    rfl rfl

/-- A symbol record as handed to `insert_top_coins`: the dicts built by
`run_filter1` always carry `symbol` and `name` strings; `market_cap` and
`rank` may be absent or `None` (`c.get(...)`), which Python's
`float(x or 0.0)` / `int(x or 0)` coerce to zero. -/
structure CoinRec where
  symbol : String
  name : String
  market_cap : Option Int
  rank : Option Int
deriving DecidableEq

/-- A row of the `coins` table
`(symbol, name, market_cap, rank, source, last_updated)`. -/
structure CoinRow where
  symbol : String
  name : String
  market_cap : Int
  rank : Int
  source : String
  last_updated : String
deriving DecidableEq

/-- The tuple built for one record in `insert_top_coins`'s `executemany`
argument; `now` stands for SQLite's `datetime('now')`. -/
def coinRowOf (source now : String) (c : CoinRec) : CoinRow :=
  { symbol := c.symbol, name := c.name,
    market_cap := c.market_cap.getD 0, rank := c.rank.getD 0,
    source := source, last_updated := now }

/-- One `INSERT OR REPLACE INTO coins` of row `r`, key `symbol`. -/
def upsertCoin (table : List CoinRow) (r : CoinRow) : List CoinRow :=
  table.filter (fun t => !(t.symbol == r.symbol)) ++ [r]

/-- `insert_top_coins` (src/db_utils.py, lines 87–120): if the input is
empty, return immediately (leaving the table untouched); otherwise, in one
transaction, `DELETE FROM coins` and then `INSERT OR REPLACE` each
transformed record in order. -/
def insert_top_coins (table : List CoinRow) (coins : List CoinRec)
    (source now : String) : List CoinRow :=
  if coins.isEmpty then table
  else (coins.map (coinRowOf source now)).foldl upsertCoin []

/-- Inserting rows with pairwise-distinct symbols into a table whose
symbols are disjoint from theirs just appends them. -/
theorem foldl_upsertCoin_of_nodup (rows : List CoinRow) :
    ∀ acc : List CoinRow,
    (rows.map (fun r => r.symbol)).Nodup →
    (∀ a ∈ acc, ∀ r ∈ rows, a.symbol ≠ r.symbol) →
    rows.foldl upsertCoin acc = acc ++ rows := by
  induction rows with
  | nil => intro acc _ _; simp
  | cons r rs ih =>
    intro acc hnodup hdisj
    simp only [List.foldl_cons]
    have hacc : acc.filter (fun t => !(t.symbol == r.symbol)) = acc := by
      rw [List.filter_eq_self]
      intro a ha
      simp only [Bool.not_eq_true', beq_eq_false_iff_ne, ne_eq]
      exact hdisj a ha r (List.mem_cons_self r rs)
    have : upsertCoin acc r = acc ++ [r] := by
      simp only [upsertCoin, hacc]
    rw [this]
    rw [ih (acc ++ [r]) (by simpa using hnodup.of_cons) ?_]
    · simp
    · intro a ha s hs
      rcases List.mem_append.mp ha with h | h
      · exact hdisj a h s (List.mem_cons_of_mem r hs)
      · simp only [List.mem_singleton] at h
        subst h
        simp only [List.map_cons, List.nodup_cons] at hnodup
        intro heq
        exact hnodup.1 (heq ▸ List.mem_map_of_mem (fun x => x.symbol) hs)

/-- C7 counterexample to the unqualified claim: (a) on an empty input list
the call is a no-op, so a previously stored row survives instead of the
table becoming empty; (b) with two input records sharing a symbol, the
table afterwards holds one row, not both given records. -/
theorem insert_top_coins_counterexample :
    insert_top_coins [⟨"OLD", "Old", 1, 1, "s", "t"⟩] [] "s" "t"
        = [⟨"OLD", "Old", 1, 1, "s", "t"⟩]
    ∧ insert_top_coins [⟨"OLD", "Old", 1, 1, "s", "t"⟩] [] "s" "t" ≠ []
    ∧ insert_top_coins []
        [⟨"BTC", "A", some 1, some 1⟩, ⟨"BTC", "B", some 2, some 2⟩] "s" "t"
        = [⟨"BTC", "B", 2, 2, "s", "t"⟩]
    ∧ insert_top_coins []
        [⟨"BTC", "A", some 1, some 1⟩, ⟨"BTC", "B", some 2, some 2⟩] "s" "t"
        ≠ [⟨"BTC", "A", 1, 1, "s", "t"⟩, ⟨"BTC", "B", 2, 2, "s", "t"⟩] := by
  refine ⟨rfl, by decide, by decide, by decide⟩

/-- C7 (amended): for a non-empty input whose symbols are pairwise
distinct, `insert_top_coins` replaces the coins table by exactly the
transformed input records, dropping every previously stored row; an empty
input leaves the table untouched. -/
theorem insert_top_coins_replaces (table : List CoinRow) (coins : List CoinRec)
    (source now : String) (hne : coins ≠ [])
    (hnodup : (coins.map (fun c => c.symbol)).Nodup) :
    insert_top_coins table coins source now = coins.map (coinRowOf source now) := by
  have hisEmpty : coins.isEmpty = false := by
    cases coins with
    | nil => exact absurd rfl hne
    | cons c cs => rfl
  rw [insert_top_coins, hisEmpty]
  simp only [Bool.false_eq_true, if_false]
  rw [foldl_upsertCoin_of_nodup _ [] ?_ (by simp)]
  · simp
  · have : (coins.map (coinRowOf source now)).map (fun r => r.symbol)
        = coins.map (fun c => c.symbol) := by
      rw [List.map_map]
      rfl
    rw [this]
    exact hnodup

/-- Witness for amended C7: a two-record snapshot fully replaces an
existing one-row table. -/
theorem insert_top_coins_replaces_witness :
    insert_top_coins [⟨"OLD", "Old", 1, 1, "s", "t"⟩]
        [⟨"BTC", "Bitcoin", some 5, none⟩, ⟨"ETH", "Ether", none, some 2⟩]
        "yahoo_screener_api" "t"
      = [⟨"BTC", "Bitcoin", 5, 0, "yahoo_screener_api", "t"⟩,
         ⟨"ETH", "Ether", 0, 2, "yahoo_screener_api", "t"⟩] :=
  insert_top_coins_replaces [⟨"OLD", "Old", 1, 1, "s", "t"⟩]
    [⟨"BTC", "Bitcoin", some 5, none⟩, ⟨"ETH", "Ether", none, some 2⟩]
    "yahoo_screener_api" "t" (by decide) (by decide)

/-! ### filter3.py — Fetch Dispatcher -/

/-- The three ways `run_history_fetch` can proceed: return immediately on
an empty plan, call `bulk_download`, or run the per-symbol thread pool. -/
inductive FetchMode
  | noop
  | bulk
  | perSymbol
deriving DecidableEq

/-- The strategy selection of `run_history_fetch` (src/filter3.py,
lines 157–175): `ranges = {(p["start_date"], p["end_date"]) for p in plan}`
is the set of distinct date-range pairs (modelled by `dedup` of the list
of pairs); bulk mode is chosen when `len(ranges) == 1 and total > 1`. -/
def run_history_fetch_mode (plan : List PlanEntry) : FetchMode :=
  if plan.length = 0 then .noop
  else if ((plan.map (fun p => (p.start_date, p.end_date))).dedup.length = 1
      ∧ plan.length > 1) then .bulk
  else .perSymbol

/-- A non-empty list has exactly one distinct element iff all its elements
coincide. -/
theorem dedup_length_eq_one_iff {α : Type} [DecidableEq α] (l : List α)
    (hne : l ≠ []) :
    l.dedup.length = 1 ↔ ∀ x ∈ l, ∀ y ∈ l, x = y := by
  constructor
  · intro h x hx y hy
    obtain ⟨a, ha⟩ := List.length_eq_one.mp h
    have hx' := List.mem_dedup.mpr hx
    have hy' := List.mem_dedup.mpr hy
    rw [ha, List.mem_singleton] at hx' hy'
    rw [hx', hy']
  · intro hall
    cases hd : l.dedup with
    | nil => exact absurd ((List.dedup_eq_nil l).mp hd) hne
    | cons a t =>
      cases t with
      | nil => rfl
      | cons b t2 =>
        have ha : a ∈ l := List.mem_dedup.mp (hd ▸ List.mem_cons_self a (b :: t2))
        have hb : b ∈ l :=
          List.mem_dedup.mp (hd ▸ List.mem_cons_of_mem a (List.mem_cons_self b t2))
        have hnd := List.nodup_dedup l
        rw [hd, List.nodup_cons] at hnd
        have hab := hall a ha b hb
        subst hab
        exact absurd (List.mem_cons_self a t2) hnd.1

/-- C3: on a non-empty plan, bulk mode is selected iff all entries share
one `(start_date, end_date)` pair and there is more than one entry;
otherwise (two entries differing in start or end, or a single entry)
per-symbol mode is selected. -/
theorem run_history_fetch_mode_spec (plan : List PlanEntry) (hne : plan ≠ []) :
    (run_history_fetch_mode plan = .bulk ↔
      ((∀ p ∈ plan, ∀ q ∈ plan,
          p.start_date = q.start_date ∧ p.end_date = q.end_date)
        ∧ 1 < plan.length))
    ∧ (run_history_fetch_mode plan = .perSymbol ↔
      ¬((∀ p ∈ plan, ∀ q ∈ plan,
          p.start_date = q.start_date ∧ p.end_date = q.end_date)
        ∧ 1 < plan.length)) := by
  have hlen : ¬(plan.length = 0) := fun h => hne (List.eq_nil_of_length_eq_zero h)
  have hmapne : plan.map (fun p => (p.start_date, p.end_date)) ≠ [] := by
    simpa using hne
  have key : (plan.map (fun p => (p.start_date, p.end_date))).dedup.length = 1 ↔
      ∀ p ∈ plan, ∀ q ∈ plan,
        p.start_date = q.start_date ∧ p.end_date = q.end_date := by
    rw [dedup_length_eq_one_iff _ hmapne]
    constructor
    · intro h p hp q hq
      have := h _ (List.mem_map_of_mem _ hp) _ (List.mem_map_of_mem _ hq)
      exact ⟨congrArg Prod.fst this, congrArg Prod.snd this⟩
    · intro h x hx y hy
      obtain ⟨p, hp, hpx⟩ := List.mem_map.mp hx
      obtain ⟨q, hq, hqy⟩ := List.mem_map.mp hy
      obtain ⟨h1, h2⟩ := h p hp q hq
      rw [← hpx, ← hqy, h1, h2]
  constructor
  · rw [run_history_fetch_mode, if_neg hlen]
    constructor
    · intro h
      by_contra hcon
      rw [if_neg (fun hc => hcon ⟨key.mp hc.1, hc.2⟩)] at h
      exact FetchMode.noConfusion h
    · intro ⟨h1, h2⟩
      rw [if_pos ⟨key.mpr h1, h2⟩]
  · rw [run_history_fetch_mode, if_neg hlen]
    constructor
    · intro h hcon
      rw [if_pos ⟨key.mpr hcon.1, hcon.2⟩] at h
      exact FetchMode.noConfusion h
    · intro hcon
      rw [if_neg (fun hc => hcon ⟨key.mp hc.1, hc.2⟩)]

/-- Witness for C3: a uniform two-entry plan selects bulk mode; making the
second start date differ, or dropping to one entry, selects per-symbol
mode. -/
theorem run_history_fetch_mode_spec_witness :
    run_history_fetch_mode
      [⟨"BTC", 5, 9⟩, ⟨"ETH", 5, 9⟩] = .bulk
    ∧ run_history_fetch_mode
      [⟨"BTC", 5, 9⟩, ⟨"ETH", 6, 9⟩] = .perSymbol
    ∧ run_history_fetch_mode [⟨"BTC", 5, 9⟩] = .perSymbol := by
  refine ⟨?_, ?_, ?_⟩
  · exact (run_history_fetch_mode_spec [⟨"BTC", 5, 9⟩, ⟨"ETH", 5, 9⟩]
      (by decide)).1.mpr ⟨by decide, by decide⟩
  · exact (run_history_fetch_mode_spec [⟨"BTC", 5, 9⟩, ⟨"ETH", 6, 9⟩]
      (by decide)).2.mpr (by decide)
  · exact (run_history_fetch_mode_spec [⟨"BTC", 5, 9⟩]
      (by decide)).2.mpr (by decide)

/-- The batch slicing of `bulk_download` (src/filter3.py, lines 79–82):
`[symbols[i : i + B] for i in range(0, len(symbols), B)]`.  For `B ≥ 1`
this is the sequence of consecutive chunks of size `B` (the last possibly
shorter); `B = 0` raises `ValueError` in Python, so the model is only
meaningful for `B ≥ 1`, which every theorem assumes. -/
def chunkList {α : Type} (B : Nat) : List α → List (List α)
  | [] => []
  | x :: xs => (x :: xs).take B :: chunkList B (xs.drop (B - 1))
termination_by l => l.length
decreasing_by
  simp only [List.length_cons, List.length_drop]
  omega

theorem chunkList_join {α : Type} (B : Nat) (hB : 1 ≤ B) :
    ∀ l : List α, (chunkList B l).flatten = l
  | [] => by rw [chunkList]; rfl
  | x :: xs => by
    rw [chunkList, List.flatten_cons, chunkList_join B hB (xs.drop (B - 1))]
    obtain ⟨k, rfl⟩ : ∃ k, B = k + 1 := ⟨B - 1, by omega⟩
    rw [List.take_succ_cons]
    simp [List.take_append_drop]
termination_by l => l.length
decreasing_by
  simp only [List.length_cons, List.length_drop]
  omega

theorem chunkList_sizes {α : Type} (B : Nat) (hB : 1 ≤ B) :
    ∀ l : List α, ∀ c ∈ chunkList B l, 1 ≤ c.length ∧ c.length ≤ B
  | [] => by rw [chunkList]; intro c hc; exact absurd hc (List.not_mem_nil c)
  | x :: xs => by
    rw [chunkList]
    intro c hc
    rcases List.mem_cons.mp hc with h | h
    · subst h
      obtain ⟨k, rfl⟩ : ∃ k, B = k + 1 := ⟨B - 1, by omega⟩
      rw [List.take_succ_cons]
      refine ⟨by simp, ?_⟩
      simp only [List.length_cons, List.length_take]
      omega
    · exact chunkList_sizes B hB (xs.drop (B - 1)) c h
termination_by l => l.length
decreasing_by
  simp only [List.length_cons, List.length_drop]
  omega

/-- One multi-symbol `yf.download` request issued by `bulk_download`: the
batch's ticker list and the shared date window.  `end_plus_one` reflects
that the source treats the end date as exclusive, so the code requests
`end_date + 1 day` (src/filter3.py, lines 72–76, 96–99). -/
structure BulkRequest where
  batch_symbols : List String
  start_date : Int
  end_plus_one : Int
deriving DecidableEq

/-- The requests `bulk_download` (src/filter3.py, lines 65–105) issues for
a plan: the plan's symbol list is sliced into batches of up to `B`
(`BULK_BATCH_SIZE`) symbols, and every batch is fetched with
`start_date = plan[0]["start_date"]` and exclusive end
`plan[0]["end_date"] + 1`.  (The `ValueError` fallback for an unparseable
end date does not arise in the integer date model.) -/
def bulk_download_requests (B : Nat) (plan : List PlanEntry) : List BulkRequest :=
  match plan with
  | [] => []
  | p0 :: rest =>
    (chunkList B ((p0 :: rest).map (fun p => p.symbol))).map
      (fun batch =>
        { batch_symbols := batch, start_date := p0.start_date,
          end_plus_one := p0.end_date + 1 })

/-- C10: for `B ≥ 1` and a non-empty plan, the batches are a partition of
the plan's symbol list — concatenated in order they equal it, each has
between 1 and `B` symbols, and each occurrence of a symbol lands in
exactly one batch (the per-symbol occurrence counts across batches sum to
the count in the plan) — and every request carries the first entry's
start date and its end date plus one. -/
theorem bulk_download_requests_spec (B : Nat) (plan : List PlanEntry)
    (hB : 1 ≤ B) (hne : plan ≠ []) :
    (((bulk_download_requests B plan).map
        (fun r => r.batch_symbols)).flatten = plan.map (fun p => p.symbol))
    ∧ (∀ r ∈ bulk_download_requests B plan,
        1 ≤ r.batch_symbols.length ∧ r.batch_symbols.length ≤ B)
    ∧ (∀ s : String,
        (((bulk_download_requests B plan).map
          (fun r => r.batch_symbols.count s)).sum
          = (plan.map (fun p => p.symbol)).count s))
    ∧ (∀ r ∈ bulk_download_requests B plan,
        r.start_date = (plan.head hne).start_date
        ∧ r.end_plus_one = (plan.head hne).end_date + 1) := by
  match plan with
  | p0 :: rest =>
    have hjoin : ((bulk_download_requests B (p0 :: rest)).map
        (fun r => r.batch_symbols)).flatten
        = (p0 :: rest).map (fun p => p.symbol) := by
      have hcomp : ((fun r : BulkRequest => r.batch_symbols) ∘
          (fun batch : List String =>
            (⟨batch, p0.start_date, p0.end_date + 1⟩ : BulkRequest))) = id := rfl
      rw [bulk_download_requests, List.map_map, hcomp, List.map_id]
      exact chunkList_join B hB _
    refine ⟨hjoin, ?_, ?_, ?_⟩
    · intro r hr
      rw [bulk_download_requests, List.mem_map] at hr
      obtain ⟨batch, hbatch, rfl⟩ := hr
      exact chunkList_sizes B hB _ batch hbatch
    · intro s
      have := congrArg (fun l => l.count s) hjoin
      simpa [List.count_flatten, Function.comp] using this
    · intro r hr
      rw [bulk_download_requests, List.mem_map] at hr
      obtain ⟨batch, _, rfl⟩ := hr
      exact ⟨rfl, rfl⟩

/-- Witness for C10: five symbols in batches of two, uniform window. -/
theorem bulk_download_requests_spec_witness :
    (((bulk_download_requests 2
        [⟨"A", 3, 9⟩, ⟨"B", 3, 9⟩, ⟨"C", 3, 9⟩, ⟨"D", 3, 9⟩, ⟨"E", 3, 9⟩]).map
        (fun r => r.batch_symbols)).flatten = ["A", "B", "C", "D", "E"]) := by
  have h := (bulk_download_requests_spec 2
      [⟨"A", 3, 9⟩, ⟨"B", 3, 9⟩, ⟨"C", 3, 9⟩, ⟨"D", 3, 9⟩, ⟨"E", 3, 9⟩]
      (by decide) (by decide)).1
  simpa using h

/-- Outcome of one `yf.download` attempt for a bulk batch, as observed by
`fetch_batch_rows`: the call raised, returned an empty DataFrame, or
returned a frame that `_parse_batch_df` turns into `rows` (the pandas
parsing layer is an external collaborator, abstracted into the payload). -/
inductive FetchOutcome
  | raised
  | emptyFrame
  | frame (rows : List BarRow)

/-- Default of the `BULK_MAX_RETRIES` configuration (src/filter3.py,
line 21). -/
def BULK_MAX_RETRIES : Nat := 3

/-- The linear backoff of src/filter3.py line 107:
`wait = min(5.0, 0.5 * attempt)`.  The float arithmetic is exact here
(0.5 · n and 5.0 are exactly representable), so rationals model it
faithfully. -/
def backoff_wait (attempt : Nat) : ℚ := min 5 ((1 / 2 : ℚ) * attempt)

/-- The retry loop of `fetch_batch_rows` (src/filter3.py, lines 91–135):
`attempt` starts at 0 and is incremented before each call
(`oracle (attempt + 1)` is the outcome of attempt number `attempt + 1`);
a raising attempt sleeps `backoff_wait` and retries while
`attempt < maxRetries`; an empty DataFrame returns `[]` immediately; a
successful frame returns its parsed rows.  The returned pair is
(rows, recorded backoff sleeps in order). -/
def fetch_batch_go (oracle : Nat → FetchOutcome) (maxRetries attempt : Nat)
    (waits : List ℚ) : List BarRow × List ℚ :=
  if attempt < maxRetries then
    match oracle (attempt + 1) with
    | .raised =>
        fetch_batch_go oracle maxRetries (attempt + 1)
          (waits ++ [backoff_wait (attempt + 1)])
    | .emptyFrame => ([], waits)
    | .frame rows => (rows, waits)
  else ([], waits)
termination_by maxRetries - attempt
decreasing_by omega

def fetch_batch_rows (oracle : Nat → FetchOutcome) : List BarRow × List ℚ :=
  fetch_batch_go oracle BULK_MAX_RETRIES 0 []

/-- The per-batch results of `bulk_download`'s executor: each batch's rows
are a function of that batch's own fetch outcomes only. -/
def bulk_run_results (oracles : List (Nat → FetchOutcome)) : List (List BarRow) :=
  oracles.map (fun o => (fetch_batch_rows o).1)

/-- The persistence loop over completed batches (src/filter3.py,
lines 144–154), linearized in submission order: each non-empty batch
result is upserted via `insert_daily_history`. -/
def bulk_run_persist (table : List BarRow)
    (oracles : List (Nat → FetchOutcome)) : List BarRow :=
  (bulk_run_results oracles).foldl
    (fun t rows => if rows.isEmpty then t else insert_daily_history t rows) table

/-- C4: in bulk mode a raising attempt `k` is retried after sleeping
`min(5.0, 0.5·k)` seconds, up to 3 attempts total; an empty response ends
the batch at once with zero rows and no retry; a batch whose three
attempts all raise yields zero rows (after three backoff sleeps) and
contributes nothing to persistence, while every other batch's result is a
function of its own outcomes alone. -/
theorem fetch_batch_rows_spec (o : Nat → FetchOutcome) :
    (o 1 = .emptyFrame → fetch_batch_rows o = ([], []))
    ∧ (o 1 = .raised → o 2 = .raised → o 3 = .raised →
        fetch_batch_rows o = ([], [backoff_wait 1, backoff_wait 2, backoff_wait 3])
        ∧ backoff_wait 1 = 1 / 2 ∧ backoff_wait 2 = 1 ∧ backoff_wait 3 = 3 / 2)
    ∧ (∀ rows, o 1 = .raised → o 2 = .frame rows →
        fetch_batch_rows o = (rows, [backoff_wait 1]))
    ∧ (∀ rows, o 1 = .raised → o 2 = .raised → o 3 = .frame rows →
        fetch_batch_rows o = (rows, [backoff_wait 1, backoff_wait 2]))
    ∧ (o 1 = .raised → o 2 = .emptyFrame →
        fetch_batch_rows o = ([], [backoff_wait 1]))
    ∧ (∀ oracles : List (Nat → FetchOutcome), ∀ i : Nat,
        (bulk_run_results oracles)[i]?
          = (oracles[i]?).map (fun ob => (fetch_batch_rows ob).1))
    ∧ (∀ (table : List BarRow) (oracles : List (Nat → FetchOutcome)),
        o 1 = .raised → o 2 = .raised → o 3 = .raised →
        bulk_run_persist table (o :: oracles) = bulk_run_persist table oracles) := by
  have hrun : ∀ h1 : o 1 = FetchOutcome.raised, ∀ h2 : o 2 = FetchOutcome.raised,
      ∀ h3 : o 3 = FetchOutcome.raised,
      fetch_batch_rows o = ([], [backoff_wait 1, backoff_wait 2, backoff_wait 3]) := by
    intro h1 h2 h3
    simp [fetch_batch_rows, BULK_MAX_RETRIES, fetch_batch_go, h1, h2, h3]
  refine ⟨?_, ?_, ?_, ?_, ?_, ?_, ?_⟩
  · intro h1
    simp [fetch_batch_rows, BULK_MAX_RETRIES, fetch_batch_go, h1]
  · intro h1 h2 h3
    refine ⟨hrun h1 h2 h3, ?_, ?_, ?_⟩
    · rw [backoff_wait]; norm_num
    · rw [backoff_wait]; norm_num
    · rw [backoff_wait]
      rw [min_eq_right (by norm_num : ((1 / 2 : ℚ) * (3 : Nat)) ≤ 5)]
      norm_num
  · intro rows h1 h2
    simp [fetch_batch_rows, BULK_MAX_RETRIES, fetch_batch_go, h1, h2]
  · intro rows h1 h2 h3
    simp [fetch_batch_rows, BULK_MAX_RETRIES, fetch_batch_go, h1, h2, h3]
  · intro h1 h2
    simp [fetch_batch_rows, BULK_MAX_RETRIES, fetch_batch_go, h1, h2]
  · intro oracles i
    simp [bulk_run_results]
  · intro table oracles h1 h2 h3
    simp only [bulk_run_persist, bulk_run_results, List.map_cons, List.foldl_cons]
    rw [hrun h1 h2 h3]
    simp

/-- Witness for C4 at the all-raising oracle: three sleeps of 0.5 s, 1 s,
1.5 s, then zero rows. -/
theorem fetch_batch_rows_spec_witness :
    fetch_batch_rows (fun _ => FetchOutcome.raised)
      = ([], [backoff_wait 1, backoff_wait 2, backoff_wait 3])
    ∧ backoff_wait 1 = 1 / 2 ∧ backoff_wait 2 = 1 ∧ backoff_wait 3 = 3 / 2 :=
  (fetch_batch_rows_spec (fun _ => FetchOutcome.raised)).2.1 rfl rfl rfl

/-- Outcome of one `t.history(...)` call inside `fetch_symbol_rows`:
raised `TypeError` (the first call does so when the installed quote
library rejects the `timeout` keyword, but the source itself may also
raise one), raised any other exception, returned an empty DataFrame, or
returned a frame parsed into `rows` (parsing abstracted as in bulk mode). -/
inductive CallResult
  | typeError
  | raised
  | emptyFrame
  | frame (rows : List BarRow)
deriving DecidableEq

/-- `fetch_symbol_rows` (src/filter3.py, lines 177–228).  `first` is the
outcome of the `t.history(..., timeout=REQUEST_TIMEOUT)` call; `fallback`
the outcome of the retry without `timeout` that the `except TypeError`
handler performs.  An exception other than `TypeError` on the first call
is caught (`except Exception`) and yields `[]`; an exception of any kind
raised inside the `except TypeError` handler is not caught by anything
and propagates out of the worker (`Except.error ()`); an empty DataFrame
from either call yields `[]`. -/
def fetch_symbol_rows (first fallback : CallResult) :
    Except Unit (List BarRow) :=
  match first with
  | .raised => .ok []
  | .emptyFrame => .ok []
  | .frame rows => .ok rows
  | .typeError =>
    match fallback with
    | .typeError => .error ()
    | .raised => .error ()
    | .emptyFrame => .ok []
    | .frame rows => .ok rows

/-- The per-symbol executor's results (src/filter3.py, lines 230–245),
one per plan entry, each a function of that entry's own call outcomes. -/
def run_per_symbol_results (oracles : List (CallResult × CallResult)) :
    List (Except Unit (List BarRow)) :=
  oracles.map (fun p => fetch_symbol_rows p.1 p.2)

/-- C5 counterexample to the claim as stated: when the first call raises
`TypeError` the worker does retry (a second call without `timeout`, whose
rows are returned), and if that fallback call raises, the exception
propagates out of the worker instead of yielding zero rows. -/
theorem fetch_symbol_rows_counterexample :
    fetch_symbol_rows CallResult.typeError CallResult.raised = Except.error ()
    ∧ fetch_symbol_rows CallResult.typeError CallResult.raised
        ≠ Except.ok ([] : List BarRow)
    ∧ fetch_symbol_rows CallResult.typeError
        (CallResult.frame [⟨"BTC", 3, 1, 1, 1, 1, 1⟩])
        = Except.ok [⟨"BTC", 3, 1, 1, 1, 1, 1⟩] := by
  refine ⟨rfl, fun h => Except.noConfusion h, rfl⟩

/-- C5 (amended): any exception other than `TypeError`, and any empty
result, makes the worker return zero rows without retrying and without
propagating; a `TypeError` on the timeout-bearing call triggers exactly
one fallback call whose rows (or empty result) are used, and an exception
raised by that fallback call propagates out of the worker; each plan
entry's result is a function of its own call outcomes only, so a
contained failure cannot alter another symbol's fetch result. -/
theorem fetch_symbol_rows_spec (first fallback : CallResult) :
    (first = .raised → fetch_symbol_rows first fallback = .ok [])
    ∧ (first = .emptyFrame → fetch_symbol_rows first fallback = .ok [])
    ∧ (∀ rows, first = .frame rows →
        fetch_symbol_rows first fallback = .ok rows)
    ∧ (first = .typeError → fallback = .emptyFrame →
        fetch_symbol_rows first fallback = .ok [])
    ∧ (∀ rows, first = .typeError → fallback = .frame rows →
        fetch_symbol_rows first fallback = .ok rows)
    ∧ (first = .typeError → (fallback = .raised ∨ fallback = .typeError) →
        fetch_symbol_rows first fallback = .error ())
    ∧ (∀ oracles : List (CallResult × CallResult), ∀ i : Nat,
        (run_per_symbol_results oracles)[i]?
          = (oracles[i]?).map (fun p => fetch_symbol_rows p.1 p.2)) := by
  refine ⟨?_, ?_, ?_, ?_, ?_, ?_, ?_⟩
  · intro h; subst h; rfl
  · intro h; subst h; rfl
  · intro rows h; subst h; rfl
  · intro h1 h2; subst h1; subst h2; rfl
  · intro rows h1 h2; subst h1; subst h2; rfl
  · intro h1 h2
    subst h1
    rcases h2 with h | h <;> subst h <;> rfl
  · intro oracles i
    simp [run_per_symbol_results]

/-- Witness for amended C5: a non-`TypeError` exception yields zero rows. -/
theorem fetch_symbol_rows_spec_witness :
    fetch_symbol_rows CallResult.raised CallResult.raised
      = Except.ok ([] : List BarRow) :=
  (fetch_symbol_rows_spec CallResult.raised CallResult.raised).1 rfl

/-! ### filter1.py — Universe Selector -/

/-- A quote object from a ranking-source page, after the dynamic field
accesses of `run_filter1`: `symbol` is `str(q.get("symbol"))` (always a
string — a missing key stringifies to `"None"`); `shortName` / `longName`
may be absent or empty; `marketCap` is `some v` when
`_extract_market_cap` can coerce it to a number (possibly unwrapping a
`{"raw": ...}` dict) and `none` when `float()` raises. -/
structure Quote where
  symbol : String
  shortName : Option String
  longName : Option String
  marketCap : Option Int
deriving DecidableEq

/-- Outcome of one mirror attempt inside `_fetch_page_json`
(src/filter1.py, lines 43–68): the HTTP request / `raise_for_status` /
`.json()` raised (sets `last_err`); the inner field extraction raised
(sets `last_err`); `finance.result` was empty (silently `continue`);
`quotes` was not a list (silently `continue`); or a usable quotes list
was returned. -/
inductive MirrorResult
  | raised
  | parseRaised
  | noResults
  | badQuotes
  | usable (quotes : List Quote)

/-- The mirror loop of `_fetch_page_json` (src/filter1.py, lines 22–76):
try each mirror in order, remembering in `has_err` whether some attempt
raised (`last_err is not None`); the first usable mirror returns its
quotes; after the loop, raise `RuntimeError` iff some attempt raised,
else return `[]`. -/
def fetch_page_go : List MirrorResult → Bool → Except Unit (List Quote)
  | [], has_err => if has_err then .error () else .ok []
  | .raised :: rest, _ => fetch_page_go rest true
  | .parseRaised :: rest, _ => fetch_page_go rest true
  | .noResults :: rest, has_err => fetch_page_go rest has_err
  | .badQuotes :: rest, has_err => fetch_page_go rest has_err
  | .usable qs :: _, _ => .ok qs

def fetch_page_json (mirrors : List MirrorResult) : Except Unit (List Quote) :=
  fetch_page_go mirrors false

/-- If the mirror loop raises, no mirror in the remaining list was
usable, whatever the error flag. -/
theorem fetch_page_go_error_no_usable (mirrors : List MirrorResult) :
    ∀ b : Bool, fetch_page_go mirrors b = .error () →
      ∀ m ∈ mirrors, ∀ qs, m ≠ .usable qs := by
  induction mirrors with
  | nil =>
    intro b _ m hm
    exact absurd hm (List.not_mem_nil m)
  | cons m0 rest ih =>
    intro b herr m hm qs
    cases m0 with
    | raised =>
      rcases List.mem_cons.mp hm with rfl | h
      · exact fun h => MirrorResult.noConfusion h
      · exact ih true herr m h qs
    | parseRaised =>
      rcases List.mem_cons.mp hm with rfl | h
      · exact fun h => MirrorResult.noConfusion h
      · exact ih true herr m h qs
    | noResults =>
      rcases List.mem_cons.mp hm with rfl | h
      · exact fun h => MirrorResult.noConfusion h
      · exact ih b herr m h qs
    | badQuotes =>
      rcases List.mem_cons.mp hm with rfl | h
      · exact fun h => MirrorResult.noConfusion h
      · exact ih b herr m h qs
    | usable qs0 =>
      exact absurd herr (fun h => Except.noConfusion h)

/-- C8: `_fetch_page_json` tries the mirrors in order — the first usable
mirror's quotes are returned, all mirrors before it having failed — and
raises only if every mirror failed; if any mirror succeeds the page does
not fail. -/
theorem fetch_page_json_spec (mirrors : List MirrorResult) :
    (fetch_page_json mirrors = .error () →
      ∀ m ∈ mirrors, ∀ qs, m ≠ .usable qs)
    ∧ (∀ qs, MirrorResult.usable qs ∈ mirrors →
        fetch_page_json mirrors ≠ .error ())
    ∧ (∀ pre qs post, mirrors = pre ++ .usable qs :: post →
        (∀ m ∈ pre, ∀ qs2, m ≠ .usable qs2) →
        fetch_page_json mirrors = .ok qs) := by
  refine ⟨fetch_page_go_error_no_usable mirrors false, ?_, ?_⟩
  · intro qs hqs herr
    exact fetch_page_go_error_no_usable mirrors false herr _ hqs qs rfl
  · intro pre qs post hsplit hpre
    subst hsplit
    rw [fetch_page_json]
    have : ∀ (pre2 : List MirrorResult) (b : Bool),
        (∀ m ∈ pre2, ∀ qs2, m ≠ .usable qs2) →
        fetch_page_go (pre2 ++ .usable qs :: post) b = .ok qs := by
      intro pre2
      induction pre2 with
      | nil => intro b _; rfl
      | cons m0 rest ih =>
        intro b hp
        have hrest : ∀ m ∈ rest, ∀ qs2, m ≠ .usable qs2 :=
          fun m hm => hp m (List.mem_cons_of_mem m0 hm)
        cases m0 with
        | raised => exact ih true hrest
        | parseRaised => exact ih true hrest
        | noResults => exact ih b hrest
        | badQuotes => exact ih b hrest
        | usable qs0 =>
          exact absurd rfl (hp _ (List.mem_cons_self _ _) qs0)
    exact this pre false hpre

/-- Witness for C8: first mirror raises, second succeeds — the page
succeeds with the second mirror's quotes. -/
theorem fetch_page_json_spec_witness :
    fetch_page_json [.raised, .usable [⟨"BTC-USD", none, none, some 5⟩]]
      = .ok [⟨"BTC-USD", none, none, some 5⟩] :=
  (fetch_page_json_spec
      [.raised, .usable [⟨"BTC-USD", none, none, some 5⟩]]).2.2
    [.raised] [⟨"BTC-USD", none, none, some 5⟩] []
    rfl
    (by
      intro m hm qs2
      rcases List.mem_cons.mp hm with rfl | h
      · exact fun h => MirrorResult.noConfusion h
      · exact absurd h (List.not_mem_nil m))

/-- Python's `x or y` for strings: `y` when `x` is missing (`None`) or
empty (falsy), else `x`. -/
def pyStrOr (a : Option String) (b : String) : String :=
  match a with
  | none => b
  | some s => if s = "" then b else s

/-- `_extract_market_cap` (src/filter1.py, lines 79–87): unwrap a
`{"raw": ...}` dict and coerce with `float()`, returning 0.0 when the
value is missing or unparseable.  `Quote.marketCap` already carries the
parse result, so extraction is `getD 0`. -/
def extract_market_cap (q : Quote) : Int :=
  q.marketCap.getD 0

/-- A collected coin dict before ranking
(`{"symbol": ..., "name": ..., "market_cap": ..., "rank": None}`). -/
structure CoinCollected where
  symbol : String
  name : String
  market_cap : Int
deriving DecidableEq

/-- The per-quote body of `run_filter1`'s page loop (src/filter1.py,
lines 114–131): skip a quote whose symbol is empty (falsy) or already
seen; otherwise append the record and mark the symbol seen.
(`seen_symbols` is a Python set; the model keeps the insertion-ordered
list, membership being the only operation used.) -/
def filter1_step (acc : List CoinCollected × List String) (q : Quote) :
    List CoinCollected × List String :=
  if q.symbol = "" ∨ q.symbol ∈ acc.2 then acc
  else
    (acc.1 ++ [⟨q.symbol, pyStrOr q.shortName (pyStrOr q.longName q.symbol),
       extract_market_cap q⟩],
     acc.2 ++ [q.symbol])

/-- The page loop of `run_filter1` (src/filter1.py, lines 100–149):
`pages i` is the outcome of `_fetch_page_json` for the `i`-th page; a
raising page stops collection with what was gathered so far; after
processing a page the loop stops when the page was empty, contributed no
new symbol, or the target count is reached.  `fuel` is the remaining page
budget (`max_pages`). -/
def filter1_loop (pages : Nat → Except Unit (List Quote)) (target : Nat) :
    Nat → Nat → List CoinCollected → List String → List CoinCollected
  | 0, _, collected, _ => collected
  | fuel + 1, page, collected, seen =>
    match pages page with
    | .error _ => collected
    | .ok quotes =>
      let acc := quotes.foldl filter1_step (collected, seen)
      if quotes.length = 0 then acc.1
      else if acc.1.length - collected.length = 0 then acc.1
      else if 1000 ≤ acc.1.length then acc.1
      else filter1_loop pages target fuel (page + 1) acc.1 acc.2

/-- A ranked output record of `run_filter1`. -/
structure CoinRanked where
  symbol : String
  name : String
  market_cap : Int
  rank : Nat
deriving DecidableEq

/-- `run_filter1` (src/filter1.py, lines 90–161): collect over at most 20
pages targeting 1000 symbols, sort by market cap descending (Python's
stable `list.sort(key=..., reverse=True)` is a stable merge sort),
truncate to 1000, then assign dense ranks via `enumerate(_, start=1)`.
The `insert_top_coins` side effect writes the same list and does not
change the returned value. -/
def run_filter1 (pages : Nat → Except Unit (List Quote)) : List CoinRanked :=
  (((((filter1_loop pages 1000 20 0 [] []).mergeSort
        (fun a b => decide (b.market_cap ≤ a.market_cap))).take
      1000).enumFrom 1).map
    (fun p => ⟨p.2.symbol, p.2.name, p.2.market_cap, p.1⟩))

theorem filter1_step_inv (q : Quote) (acc : List CoinCollected × List String)
    (h : acc.1.map (fun c => c.symbol) = acc.2 ∧ acc.2.Nodup) :
    (filter1_step acc q).1.map (fun c => c.symbol) = (filter1_step acc q).2
      ∧ (filter1_step acc q).2.Nodup := by
  rw [filter1_step]
  split
  · exact h
  · rename_i hcond
    push_neg at hcond
    refine ⟨by simp [h.1], ?_⟩
    simp only [List.nodup_append, List.nodup_cons, List.not_mem_nil,
      not_false_iff, List.nodup_nil, and_true, true_and]
    refine ⟨h.2, ?_⟩
    intro a ha hb
    simp only [List.mem_singleton] at hb
    subst hb
    exact hcond.2 ha

theorem foldl_filter1_step_inv (quotes : List Quote) :
    ∀ acc : List CoinCollected × List String,
      acc.1.map (fun c => c.symbol) = acc.2 ∧ acc.2.Nodup →
      (quotes.foldl filter1_step acc).1.map (fun c => c.symbol)
          = (quotes.foldl filter1_step acc).2
        ∧ (quotes.foldl filter1_step acc).2.Nodup := by
  induction quotes with
  | nil => intro acc h; exact h
  | cons q qs ih => intro acc h; exact ih _ (filter1_step_inv q acc h)

theorem filter1_loop_nodup (pages : Nat → Except Unit (List Quote))
    (target : Nat) :
    ∀ (fuel page : Nat) (collected : List CoinCollected) (seen : List String),
      collected.map (fun c => c.symbol) = seen ∧ seen.Nodup →
      ((filter1_loop pages target fuel page collected seen).map
        (fun c => c.symbol)).Nodup := by
  intro fuel
  induction fuel with
  | zero =>
    intro page collected seen h
    rw [filter1_loop]
    exact h.1 ▸ h.2
  | succ n ih =>
    intro page collected seen h
    rw [filter1_loop]
    cases hpg : pages page with
    | error e => exact h.1 ▸ h.2
    | ok quotes =>
      have hacc := foldl_filter1_step_inv quotes (collected, seen) h
      simp only []
      split
      · exact hacc.1 ▸ hacc.2
      · split
        · exact hacc.1 ▸ hacc.2
        · split
          · exact hacc.1 ▸ hacc.2
          · exact ih (page + 1) _ _ hacc

/-- C6: the selector's output has no duplicate symbols, at most 1000
records, market caps in non-increasing order (missing or unparseable
market caps having been coerced to 0), and ranks exactly 1..count with no
gaps. -/
theorem run_filter1_spec (pages : Nat → Except Unit (List Quote)) :
    ((run_filter1 pages).map (fun c => c.symbol)).Nodup
    ∧ (run_filter1 pages).length ≤ 1000
    ∧ (run_filter1 pages).Pairwise
        (fun a b => a.market_cap ≥ b.market_cap)
    ∧ (run_filter1 pages).map (fun c => c.rank)
        = List.range' 1 (run_filter1 pages).length := by
  have hnodup : ((filter1_loop pages 1000 20 0 [] []).map
      (fun c => c.symbol)).Nodup :=
    filter1_loop_nodup pages 1000 20 0 [] [] ⟨rfl, List.nodup_nil⟩
  have hperm : List.Perm
      ((filter1_loop pages 1000 20 0 [] []).mergeSort
        (fun a b => decide (b.market_cap ≤ a.market_cap)))
      (filter1_loop pages 1000 20 0 [] []) :=
    List.mergeSort_perm _ _
  have hsnodup : (((filter1_loop pages 1000 20 0 [] []).mergeSort
      (fun a b => decide (b.market_cap ≤ a.market_cap))).map
      (fun c => c.symbol)).Nodup :=
    ((hperm.map (fun c => c.symbol)).nodup_iff).mpr hnodup
  have htnodup : ((((filter1_loop pages 1000 20 0 [] []).mergeSort
      (fun a b => decide (b.market_cap ≤ a.market_cap))).take 1000).map
      (fun c => c.symbol)).Nodup := by
    rw [List.map_take]
    exact (List.take_sublist 1000 _).nodup hsnodup
  have hsorted : ((filter1_loop pages 1000 20 0 [] []).mergeSort
      (fun a b => decide (b.market_cap ≤ a.market_cap))).Pairwise
      (fun a b => a.market_cap ≥ b.market_cap) := by
    have h := @List.sorted_mergeSort CoinCollected
      (fun a b : CoinCollected => decide (b.market_cap ≤ a.market_cap))
      (fun a b c hab hbc => by
        simp only [decide_eq_true_eq] at hab hbc ⊢
        exact le_trans hbc hab)
      (fun a b => by
        simp only [Bool.or_eq_true, decide_eq_true_eq]
        exact le_total b.market_cap a.market_cap)
      (filter1_loop pages 1000 20 0 [] [])
    refine h.imp ?_
    intro a b hab
    simpa [ge_iff_le] using hab
  have htsorted : (((filter1_loop pages 1000 20 0 [] []).mergeSort
      (fun a b => decide (b.market_cap ≤ a.market_cap))).take 1000).Pairwise
      (fun a b => a.market_cap ≥ b.market_cap) :=
    List.Pairwise.sublist (List.take_sublist 1000 _) hsorted
  refine ⟨?_, ?_, ?_, ?_⟩
  · rw [run_filter1, List.map_map]
    have hcomp : ((fun c : CoinRanked => c.symbol) ∘
        (fun p : Nat × CoinCollected =>
          (⟨p.2.symbol, p.2.name, p.2.market_cap, p.1⟩ : CoinRanked)))
        = (fun c : CoinCollected => c.symbol) ∘ Prod.snd := rfl
    rw [hcomp, ← List.map_map, List.enumFrom_map_snd]
    exact htnodup
  · rw [run_filter1, List.length_map, List.enumFrom_length, List.length_take]
    exact le_trans (Nat.min_le_left _ _) (le_refl 1000)
  · rw [run_filter1]
    refine List.pairwise_map.mpr ?_
    have h2 := htsorted
    rw [← List.enumFrom_map_snd 1 (((filter1_loop pages 1000 20 0 [] []).mergeSort
      (fun a b => decide (b.market_cap ≤ a.market_cap))).take 1000)] at h2
    have h3 := List.pairwise_map.mp h2
    exact h3
  · rw [run_filter1, List.map_map, List.length_map, List.enumFrom_length]
    have hcomp : ((fun c : CoinRanked => c.rank) ∘
        (fun p : Nat × CoinCollected =>
          (⟨p.2.symbol, p.2.name, p.2.market_cap, p.1⟩ : CoinRanked)))
        = Prod.fst := rfl
    rw [hcomp, List.enumFrom_map_fst]

end DAS
